import Mathlib

/-!
Verification development for the `hackernews-comments` plugin.

The embedding follows `src/scraper.ts` and `src/formatter.ts`.  Comment
trees are modelled by a nested inductive type `HNComment` mirroring the
`HNComment` interface; the two acquisition strategies, the URL checks and
the whole Markdown formatter are translated into executable Lean
functions.  Network access, the external DOM parser and the date library
are modelled as explicit pure parameters (a `store` function for the
item API, a `parseHtml` function for `DOMParser`, a `formatTime` /
`toISO` function for `moment` / `Date`); recursion that is unbounded in
the source (the recursive comment fetch, the flat-list tree build, the
regex scanners) is expressed with an explicit fuel argument that the
top-level entry points instantiate with a sufficient bound.
-/

set_option maxHeartbeats 1000000
set_option linter.unusedVariables false

/-! ### JavaScript string primitives

The JavaScript string operations used by the source are modelled over
the character list of a `String`, so that every definition evaluates by
kernel reduction. -/

/-- JavaScript `\s` (and the whitespace trimmed by `trim`) on the ASCII
range. -/
def wsCharB (c : Char) : Bool :=
  c = ' ' || c = '\t' || c = '\n' || c = '\r' || c = '\x0b' || c = '\x0c'

/-- JavaScript `s.toLowerCase()` (ASCII range). -/
def jsToLower (s : String) : String :=
  String.mk (s.data.map Char.toLower)

/-- JavaScript `s.trim()` on a character list. -/
def trimL (cs : List Char) : List Char :=
  ((cs.dropWhile wsCharB).reverse.dropWhile wsCharB).reverse

/-- JavaScript `s.trim()`. -/
def jsTrim (s : String) : String :=
  String.mk (trimL s.data)

/-- JavaScript `s.startsWith(p)`. -/
def jsStartsWith (s p : String) : Bool :=
  p.data.isPrefixOf s.data

/-- JavaScript `s.includes(c)` for a single character. -/
def jsIncludesChar (s : String) (c : Char) : Bool :=
  s.data.contains c

/-- JavaScript `s.replace(/pat/g, rep)` for a non-empty literal pattern:
replace every occurrence, left to right, without rescanning the
replacement.  One unit of fuel is spent per consumed character. -/
def replaceAllL (pat rep : List Char) : Nat → List Char → List Char
  | 0, cs => cs
  | _ + 1, [] => []
  | fuel + 1, c :: rest =>
      if pat.isPrefixOf (c :: rest) && !pat.isEmpty then
        rep ++ replaceAllL pat rep fuel ((c :: rest).drop pat.length)
      else c :: replaceAllL pat rep fuel rest

/-- JavaScript `s.replace(/pat/g, rep)` on strings. -/
def jsReplaceAll (s pat rep : String) : String :=
  String.mk (replaceAllL pat.data rep.data s.data.length s.data)

/-- JavaScript `s.split('\n')`. -/
def splitNlL : List Char → List (List Char)
  | [] => [[]]
  | c :: rest =>
      if c = '\n' then [] :: splitNlL rest
      else
        match splitNlL rest with
        | p :: ps => (c :: p) :: ps
        | [] => [[c]]

/-- JavaScript `parts.join('\n')`. -/
def joinNlL : List (List Char) → List Char
  | [] => []
  | [p] => p
  | p :: q :: rest => p ++ '\n' :: joinNlL (q :: rest)

/-- The `HNComment` interface of `src/scraper.ts` (fields `id`, `author`,
`text`, `time`, `level`, `children`, `parentId?`). -/
inductive HNComment : Type where
  | mk (id : String) (author : String) (text : String) (time : String)
       (level : Nat) (children : List HNComment) (parentId : Option String)

def HNComment.id : HNComment → String
  | HNComment.mk i _ _ _ _ _ _ => i

def HNComment.author : HNComment → String
  | HNComment.mk _ a _ _ _ _ _ => a

def HNComment.text : HNComment → String
  | HNComment.mk _ _ t _ _ _ _ => t

def HNComment.time : HNComment → String
  | HNComment.mk _ _ _ t _ _ _ => t

def HNComment.level : HNComment → Nat
  | HNComment.mk _ _ _ _ l _ _ => l

def HNComment.children : HNComment → List HNComment
  | HNComment.mk _ _ _ _ _ c _ => c

def HNComment.parentId : HNComment → Option String
  | HNComment.mk _ _ _ _ _ _ p => p

/-- The `HNPostInfo` interface of `src/scraper.ts`. -/
structure HNPostInfo where
  comments : List HNComment
  originalUrl : Option String
  postId : String
  commentCount : Nat
  scrapedDate : String
  title : Option String

/-- The per-element contribution of `countTotalComments`'s `forEach`
loop: for each comment the recursive count of its `children`. -/
def sumChildCounts : List HNComment → Nat
  | [] => 0
  | HNComment.mk _ _ _ _ _ children _ :: rest =>
      (children.length + sumChildCounts children) + sumChildCounts rest

/-- `countTotalComments` of `src/scraper.ts`: the list length plus, for
each comment, the recursive count of its children. -/
def countTotalComments (comments : List HNComment) : Nat :=
  comments.length + sumChildCounts comments

/-- Specification-side count: the number of nodes reachable from a
forest, one per node, summing transitively over all children. -/
def reachableNodes : List HNComment → Nat
  | [] => 0
  | HNComment.mk _ _ _ _ _ children _ :: rest =>
      1 + reachableNodes children + reachableNodes rest

/-- Checks that every comment of a forest carries the expected `level`
and that children always sit at their parent's level plus one. -/
def levelsFromB : Nat → List HNComment → Bool
  | _, [] => true
  | expected, HNComment.mk _ _ _ _ lvl children _ :: rest =>
      (lvl == expected) && levelsFromB (expected + 1) children &&
        levelsFromB expected rest

/-- Checks that throughout a forest every child's `level` is strictly
greater than its parent's `level`. -/
def strictForestB : List HNComment → Bool
  | [] => true
  | HNComment.mk _ _ _ _ lvl children _ :: rest =>
      children.all (fun d => decide (lvl < d.level)) && strictForestB children &&
        strictForestB rest

/-- All nodes reachable from a forest, in pre-order. -/
def flattenForest : List HNComment → List HNComment
  | [] => []
  | HNComment.mk i a t ti l children p :: rest =>
      HNComment.mk i a t ti l children p ::
        (flattenForest children ++ flattenForest rest)

/-! ## Flat-list (HTML) reconstruction, `parseComments` of `src/scraper.ts`

A comment row as extracted from one `.comtr` table row: the row `id`
attribute, the `.hnuser` text, the `.age` text, the `.commtext` inner
HTML, and the indentation level (`.ind img` width divided by 40). -/

structure RawRow where
  id : String
  author : String
  time : String
  text : String
  level : Nat

instance : Inhabited RawRow := ⟨⟨"", "", "", "", 0⟩⟩

/-- Level of the row at index `j` (`allComments[j].level`). -/
def lvlAt (rows : List RawRow) (j : Nat) : Nat :=
  (rows.getD j default).level

/-- `findParentComment` of `src/scraper.ts`: starting just below the
child's index, scan backwards for the nearest row whose level is
strictly smaller than the child's level. -/
def findParentFrom (rows : List RawRow) (childLevel : Nat) : Nat → Option Nat
  | 0 => none
  | j + 1 =>
      if lvlAt rows j < childLevel then some j
      else findParentFrom rows childLevel j

/-- Indices attached as children of row `j` by the `forEach` tree-build
loop of `parseComments`, in document order: rows of non-zero level whose
backward parent scan lands on `j`. -/
def childIndices (rows : List RawRow) (j : Nat) : List Nat :=
  (List.range rows.length).filter
    (fun i => lvlAt rows i != 0 && findParentFrom rows (lvlAt rows i) i == some j)

/-- Indices that `parseComments` pushes to `rootComments`: rows of level
zero, and rows whose backward parent scan finds nothing. -/
def rootIndices (rows : List RawRow) : List Nat :=
  (List.range rows.length).filter
    (fun i => lvlAt rows i == 0 || findParentFrom rows (lvlAt rows i) i == none)

/-- The `parentId` back-reference assigned to row `i` by the tree-build
loop (set only when a parent is found). -/
def parentIdField (rows : List RawRow) (i : Nat) : Option String :=
  if lvlAt rows i == 0 then none
  else
    match findParentFrom rows (lvlAt rows i) i with
    | some j => some (rows.getD j default).id
    | none => none

/-- The comment object built for row `i`, with the children attached by
the `forEach` loop (`fuel` bounds the nesting depth; parent indices are
strictly smaller than child indices, so `rows.length` is always
enough). -/
def buildNode (rows : List RawRow) : Nat → Nat → HNComment
  | 0, i =>
      let r := rows.getD i default
      HNComment.mk r.id r.author r.text r.time r.level [] (parentIdField rows i)
  | fuel + 1, i =>
      let r := rows.getD i default
      HNComment.mk r.id r.author r.text r.time r.level
        ((childIndices rows i).map (buildNode rows fuel)) (parentIdField rows i)

/-- The comment tree for row `i` with the canonical fuel. -/
def nodeAt (rows : List RawRow) (i : Nat) : HNComment :=
  buildNode rows (rows.length - i) i

/-- Rows kept by `parseComments`: rows with a non-empty `id` (`if (!id)
return` skips the others). -/
def keptRows (rows : List RawRow) : List RawRow :=
  rows.filter (fun r => r.id != "")

/-- The `rootComments` forest built by `parseComments` from the comment
rows of the document. -/
def buildCommentTree (rows : List RawRow) : List HNComment :=
  let all := keptRows rows
  (rootIndices all).map (buildNode all all.length)

/-! ## Structured (API) strategy, `fetchWithHackerNewsAPI` and
`fetchCommentsRecursively` of `src/scraper.ts` -/

/-- A JSON item record of the Hacker News read-only API (`by`, `text`,
`time`, `kids`, `url`, `title`, `deleted`, `dead`, `descendants`).  The
code never reads `descendants`; it is kept so that independence from the
source-reported count is visible in the model. -/
structure HNItem where
  by_ : Option String
  text : Option String
  time : Nat
  kids : List Nat
  url : Option String
  title : Option String
  deleted : Bool
  dead : Bool
  descendants : Option Nat

/-- JavaScript `o || dflt` on an optional string (the empty string is
falsy). -/
def jsOrString (o : Option String) (dflt : String) : String :=
  match o with
  | some s => if s = "" then dflt else s
  | none => dflt

/-- JavaScript `o || undefined` on an optional string. -/
def jsOrNone (o : Option String) : Option String :=
  match o with
  | some s => if s = "" then none else some s
  | none => none

/-- One pass of the `for (const commentId of commentIds)` loop of
`fetchCommentsRecursively`, parameterised by the recursive call used for
child lists.  `store` models the per-item network fetch: `none` stands
for a failed request, a non-200 status, or a null record, all of which
`continue` to the next sibling; deleted or dead records are skipped. -/
def fetchRecStep (store : Nat → Option HNItem) (formatTime : Nat → String)
    (recurse : List Nat → Nat → Option String → List HNComment) :
    List Nat → Nat → Option String → List HNComment
  | [], _, _ => []
  | commentId :: rest, level, parentId =>
      match store commentId with
      | none => fetchRecStep store formatTime recurse rest level parentId
      | some d =>
          if d.deleted || d.dead then
            fetchRecStep store formatTime recurse rest level parentId
          else
            let cid := "comment_" ++ toString commentId
            let children :=
              if d.kids.length > 0 then recurse d.kids (level + 1) (some cid)
              else []
            HNComment.mk cid (jsOrString d.by_ "Anonymous") (jsOrString d.text "")
                (formatTime d.time) level children parentId ::
              fetchRecStep store formatTime recurse rest level parentId

/-- `fetchCommentsRecursively` of `src/scraper.ts`: builds the comment
objects for a list of ids at a given `level`, recursing into `kids` at
`level + 1` with the parent's id.  `fuel` bounds the recursion depth
(the source recursion is bounded by the finite comment tree). -/
def fetchCommentsRecursively (store : Nat → Option HNItem)
    (formatTime : Nat → String) :
    Nat → List Nat → Nat → Option String → List HNComment
  | 0 => fetchRecStep store formatTime (fun _ _ _ => [])
  | fuel + 1 => fetchRecStep store formatTime
      (fetchCommentsRecursively store formatTime fuel)

/-- Environment of the structured strategy: the root-item fetch (keyed
by the item-id string), the per-comment fetch, the `moment`-based time
formatter, and a depth bound for the recursive fetch. -/
structure APIEnv where
  rootStore : String → Option HNItem
  store : Nat → Option HNItem
  formatTime : Nat → String
  fuel : Nat

/-- `fetchWithHackerNewsAPI` of `src/scraper.ts`.  `Except.error` models
a thrown error (failed root request, non-200 status, or the `TypeError`
raised by reading `.url` off a null record); an item without kids yields
an empty comment list together with the record's `url` and `title`. -/
def fetchWithHackerNewsAPI (env : APIEnv) (itemId : String) :
    Except Unit (List HNComment × Option String × Option String) :=
  match env.rootStore itemId with
  | none => Except.error ()
  | some item =>
      let originalUrl := jsOrNone item.url
      let title := jsOrNone item.title
      if item.kids.length = 0 then Except.ok ([], originalUrl, title)
      else
        Except.ok
          (fetchCommentsRecursively env.store env.formatTime env.fuel item.kids 0 none,
            originalUrl, title)

/-! ## URL validation and item-id extraction -/

/-- The characters of `http://news.ycombinator.com/item?id=`. -/
def canonPrefixHttp : List Char := "http://news.ycombinator.com/item?id=".data

/-- The characters of `https://news.ycombinator.com/item?id=`. -/
def canonPrefixHttps : List Char := "https://news.ycombinator.com/item?id=".data

/-- Does the character list start with a decimal digit? -/
def firstIsDigit : List Char → Bool
  | [] => false
  | c :: _ => c.isDigit

/-- `isValidHNUrl` of `src/scraper.ts`: the test of the anchored regex
`^https?:\/\/news\.ycombinator\.com\/item\?id=\d+` (a prefix match:
trailing characters after the digits are not rejected). -/
def isValidHNUrl (url : String) : Bool :=
  (canonPrefixHttp.isPrefixOf url.data && firstIsDigit (url.data.drop canonPrefixHttp.length)) ||
  (canonPrefixHttps.isPrefixOf url.data && firstIsDigit (url.data.drop canonPrefixHttps.length))

/-- The characters of `item?id=`. -/
def itemIdPat : List Char := "item?id=".data

/-- Search of the unanchored regex `item\?id=(\d+)`: at each position in
turn, try to match `item?id=` followed by at least one digit and capture
the maximal digit run; otherwise advance one character. -/
def extractFrom : List Char → Option (List Char)
  | [] => none
  | c :: rest =>
      if itemIdPat.isPrefixOf (c :: rest) then
        let digits := ((c :: rest).drop itemIdPat.length).takeWhile Char.isDigit
        if digits.isEmpty then extractFrom rest else some digits
      else extractFrom rest

/-- `url.match(/item\?id=(\d+)/)` followed by taking the first capture
group, as used by `scrapeComments`. -/
def extractItemId (url : String) : Option String :=
  (extractFrom url.data).map (fun digits => String.mk digits)

/-! ## `scrapeComments` of `src/scraper.ts` -/

/-- The data `parseComments` reads from the fetched HTML document: the
comment rows, the `.titleline` text (absent or blank falls back to
`Unknown Title`) and the `.titleline > a` href. -/
structure HtmlDoc where
  rows : List RawRow
  titleText : Option String
  titleHref : Option String

/-- Environment of one acquisition: the API environment, the optional
HTML document (`none` models a thrown `requestUrl`), and the value of
`new Date().toISOString()` at scrape time. -/
structure ScrapeEnv where
  api : APIEnv
  html : Option HtmlDoc
  now : String

/-- The title string computed by `parseComments`
(`doc.querySelector('.titleline')?.textContent?.trim() || 'Unknown Title'`). -/
def parseTitle (doc : HtmlDoc) : String :=
  match doc.titleText with
  | some t => if jsTrim t = "" then "Unknown Title" else jsTrim t
  | none => "Unknown Title"

/-- `parseComments` of `src/scraper.ts`, starting from the extracted
row data: builds the comment forest, the original URL and the title. -/
def parseComments (doc : HtmlDoc) : List HNComment × Option String × String :=
  (buildCommentTree doc.rows, jsOrNone doc.titleHref, parseTitle doc)

/-- The message thrown on a malformed URL. -/
def invalidUrlMsg : String :=
  "Invalid Hacker News URL. Please provide a URL in the format: https://news.ycombinator.com/item?id=XXXXX"

/-- The HTML fallback branch of `scrapeComments`: fetch the page, parse
its rows, and assemble the `HNPostInfo` with a computed comment count. -/
def scrapeHtmlFallback (env : ScrapeEnv) (itemId : String) : Except String HNPostInfo :=
  match env.html with
  | none => Except.error "Failed to fetch Hacker News page"
  | some doc =>
      let parsed := parseComments doc
      Except.ok
        { comments := parsed.1
          originalUrl := parsed.2.1
          postId := itemId
          commentCount := countTotalComments parsed.1
          scrapedDate := env.now
          title := some parsed.2.2 }

/-- `scrapeComments` of `src/scraper.ts`: validate the URL, extract the
item id, try the API strategy, and fall back to HTML scraping whenever
the API throws or returns no comments. -/
def scrapeComments (env : ScrapeEnv) (url : String) : Except String HNPostInfo :=
  if !isValidHNUrl url then Except.error invalidUrlMsg
  else
    match extractItemId url with
    | none => Except.error "Could not extract item ID from URL"
    | some itemId =>
        match fetchWithHackerNewsAPI env.api itemId with
        | Except.ok (comments, originalUrl, title) =>
            if comments.length > 0 then
              Except.ok
                { comments := comments
                  originalUrl := originalUrl
                  postId := itemId
                  commentCount := countTotalComments comments
                  scrapedDate := env.now
                  title := title }
            else scrapeHtmlFallback env itemId
        | Except.error _ => scrapeHtmlFallback env itemId

/-! ## HTML-to-Markdown body conversion, `src/formatter.ts` -/

/-- A parsed DOM node, as produced by the external `DOMParser`: a text
node or an element with a tag, attributes and child nodes. -/
inductive DomNode : Type where
  | text (s : String)
  | elem (tag : String) (attrs : List (String × String)) (children : List DomNode)

/-- `element.getAttribute(name)`. -/
def getAttr (attrs : List (String × String)) (name : String) : Option String :=
  (attrs.find? (fun p => p.1 == name)).map (fun p => p.2)

/-- `node.textContent`: the concatenated text of all descendants. -/
def textContentList : List DomNode → String
  | [] => ""
  | DomNode.text s :: rest => s ++ textContentList rest
  | DomNode.elem _ _ children :: rest => textContentList children ++ textContentList rest

/-- `isSafeUrl` of `src/formatter.ts`: empty hrefs are rejected; after
trimming and lower-casing, the url must start with `http://`,
`https://`, `/` or `#`, or contain no `:` while not starting with
`//`. -/
def isSafeUrl (url : String) : Bool :=
  if url = "" then false
  else
    let trimmed := jsToLower (jsTrim url)
    jsStartsWith trimmed "http://" || jsStartsWith trimmed "https://" ||
      jsStartsWith trimmed "/" || jsStartsWith trimmed "#" ||
      (!(jsIncludesChar trimmed ':') && !(jsStartsWith trimmed "//"))

/-- `domToMarkdown` of `src/formatter.ts`, iterating the child nodes of
an element whose (lower-cased) tag is `parentTag`: text passes through,
`p` prepends a blank line, `a` becomes a Markdown link only when the
href is safe (otherwise the text content alone), `pre` becomes a fenced
block of raw text, `code` becomes a backtick span unless its parent is a
`pre`, `i`/`em` and `b`/`strong` wrap recursively, `br` is a newline,
and any other element is flattened to its converted children. -/
def domToMarkdownList (parentTag : String) : List DomNode → String
  | [] => ""
  | DomNode.text s :: rest => s ++ domToMarkdownList parentTag rest
  | DomNode.elem tag attrs children :: rest =>
      let t := jsToLower tag
      let piece :=
        if t = "p" then "\n\n" ++ domToMarkdownList t children
        else if t = "a" then
          let href := (getAttr attrs "href").getD ""
          let linkText := textContentList children
          if isSafeUrl href then "[" ++ linkText ++ "](" ++ href ++ ")"
          else linkText
        else if t = "pre" then "```\n" ++ textContentList children ++ "\n```"
        else if t = "code" then
          if parentTag != "pre" then "`" ++ textContentList children ++ "`"
          else textContentList children
        else if t = "i" || t = "em" then "*" ++ domToMarkdownList t children ++ "*"
        else if t = "b" || t = "strong" then "**" ++ domToMarkdownList t children ++ "**"
        else if t = "br" then "\n"
        else domToMarkdownList t children
      piece ++ domToMarkdownList parentTag rest

/-- `decodeHtmlEntities` of `src/formatter.ts`: the chained global
replacements, in source order. -/
def decodeHtmlEntities (text : String) : String :=
  jsReplaceAll
    (jsReplaceAll
      (jsReplaceAll
        (jsReplaceAll
          (jsReplaceAll (jsReplaceAll (jsReplaceAll text "&lt;" "<") "&gt;" ">")
            "&amp;" "&")
          "&quot;" "\"")
        "&#x27;" "'")
      "&#x2F;" "/")
    "&#39;" "'"

/-! ## The tag-wrapping pass, `wrapHtmlTagsInBackticks` and
`processHtmlTags` of `src/formatter.ts`

The three regular expressions involved are translated into explicit
scanners over character lists, mirroring the JavaScript engine's
leftmost-match, greedy/lazy and backtracking behaviour for these
particular patterns. -/

/-- The regex class `[a-zA-Z]`. -/
def isAsciiAlpha (c : Char) : Bool :=
  c.isAlpha

/-- The regex class `[a-zA-Z0-9]`. -/
def isAsciiAlnum (c : Char) : Bool :=
  c.isAlpha || c.isDigit

/-- A character allowed by the bare attribute value class
`[^'"<>\s]`. -/
def bareCharB (c : Char) : Bool :=
  !(c = '\'' || c = '"' || c = '<' || c = '>' || wsCharB c)

/-- Length of the longest prefix satisfying `p`. -/
def countWhile (p : Char → Bool) (cs : List Char) : Nat :=
  (cs.takeWhile p).length

/-- The characters of `&lt;`. -/
def ltEnt : List Char := "&lt;".data

/-- The characters of `&gt;`. -/
def gtEnt : List Char := "&gt;".data

/-- Does the list start with `c`? -/
def firstIs (c : Char) : List Char → Bool
  | [] => false
  | x :: _ => x = c

/-- Consumption of the tail `\s*\/?&gt;` of the tag regex. -/
def closeLen (cs : List Char) : Option Nat :=
  let wsn := countWhile wsCharB cs
  let cs1 := cs.drop wsn
  match cs1 with
  | '/' :: cs2 => if gtEnt.isPrefixOf cs2 then some (wsn + 1 + 4) else none
  | _ => if gtEnt.isPrefixOf cs1 then some (wsn + 4) else none

/-- The possible consumptions of the attribute value alternation
`"[^"]*"|'[^']*'|[^'"<>\s]+`, in the engine's preference order: a quoted
value is determined by its closing quote, a bare value is tried greedily
from the longest run down to one character. -/
def valueAlts (cs : List Char) : List Nat :=
  match cs with
  | '"' :: cs1 =>
      let k := countWhile (fun c => c != '"') cs1
      if firstIs '"' (cs1.drop k) then [k + 2] else []
  | '\'' :: cs1 =>
      let k := countWhile (fun c => c != '\'') cs1
      if firstIs '\'' (cs1.drop k) then [k + 2] else []
  | _ =>
      let m := countWhile bareCharB cs
      (List.range m).map (fun d => m - d)

/-- The possible consumptions of one attribute clause
`\s+[a-zA-Z][a-zA-Z0-9]*(?:=VALUE)?`, in preference order (the optional
`=VALUE` part is tried before its omission). -/
def attrAlts (cs : List Char) : List Nat :=
  let wsn := countWhile wsCharB cs
  if wsn = 0 then []
  else
    match cs.drop wsn with
    | c :: cs1 =>
        if isAsciiAlpha c then
          let alnn := countWhile isAsciiAlnum cs1
          let base := wsn + 1 + alnn
          (match cs1.drop alnn with
            | '=' :: cs3 => (valueAlts cs3).map (fun v => base + 1 + v)
            | _ => []) ++ [base]
        else []
    | [] => []

/-- First successful alternative, with a fallback. -/
def firstSomeN : List (Option Nat) → Option Nat → Option Nat
  | [], dflt => dflt
  | some n :: _, _ => some n
  | none :: rest, dflt => firstSomeN rest dflt

/-- Backtracking consumption of `ATTR* \s*\/?&gt;`: prefer one more
attribute iteration (with its alternatives in preference order) and
otherwise close.  Every attribute consumes at least two characters, so
`cs.length` is always enough fuel. -/
def attrsClose : Nat → List Char → Option Nat
  | 0, cs => closeLen cs
  | fuel + 1, cs =>
      firstSomeN
        ((attrAlts cs).map (fun n => (attrsClose fuel (cs.drop n)).map (fun m => n + m)))
        (closeLen cs)

/-- Match of the tag-wrapping regex
`&lt;\/?[a-zA-Z][a-zA-Z0-9]*(?:\s+[a-zA-Z][a-zA-Z0-9]*(?:=(?:"[^"]*"|'[^']*'|[^'"<>\s]+))?)*\s*\/?&gt;`
at the head of the list, returning the length of the match.  Note that
the pattern looks for the *entity forms* `&lt;` and `&gt;`, not for
literal angle brackets (`changed by @gapmiss` in the source). -/
def tagMatchAt (cs : List Char) : Option Nat :=
  if ltEnt.isPrefixOf cs then
    let cs1 := cs.drop 4
    let slashN := match cs1 with | '/' :: _ => 1 | _ => 0
    let cs2 := cs1.drop slashN
    match cs2 with
    | c :: cs3 =>
        if isAsciiAlpha c then
          let alnn := countWhile isAsciiAlnum cs3
          (attrsClose (cs3.drop alnn).length (cs3.drop alnn)).map
            (fun m => 4 + slashN + 1 + alnn + m)
        else none
    | [] => none
  else none

/-- `replace(tagRegex, '`$1`')`: scan left to right, wrapping each match
in single backticks; one unit of fuel is spent per consumed character. -/
def tagReplaceGo : Nat → List Char → List Char
  | 0, cs => cs
  | fuel + 1, cs =>
      match cs with
      | [] => []
      | c :: rest =>
          match tagMatchAt cs with
          | some n => '\x60' :: (cs.take n ++ ('\x60' :: tagReplaceGo fuel (cs.drop n)))
          | none => c :: tagReplaceGo fuel rest

/-- The tag replacement applied to one non-code segment. -/
def tagReplace (cs : List Char) : List Char :=
  tagReplaceGo cs.length cs

/-- Match of the inline-code regex `` `[^`]+` `` at the head of the
list: a backtick, at least one non-backtick character, and a closing
backtick. -/
def inlineMatchAt : List Char → Option Nat
  | '\x60' :: rest =>
      let k := countWhile (fun c => c != '\x60') rest
      if k = 0 then none
      else if firstIs '\x60' (rest.drop k) then some (k + 2) else none
  | _ => none

/-- `text.split(re)` together with `text.match(re)` for a global regex
given by its head-match function: the parts between matches and the
matches themselves, in order.  One unit of fuel is spent per consumed
character. -/
def splitByGo (matchAt : List Char → Option Nat) :
    Nat → List Char → List (List Char) × List (List Char)
  | 0, cs => ([cs], [])
  | fuel + 1, cs =>
      match cs with
      | [] => ([[]], [])
      | c :: rest =>
          match matchAt cs with
          | some n =>
              let next := splitByGo matchAt fuel (cs.drop n)
              ([] :: next.1, cs.take n :: next.2)
          | none =>
              match splitByGo matchAt fuel rest with
              | (p :: ps, ms) => ((c :: p) :: ps, ms)
              | ([], ms) => ([[c]], ms)

/-- `text.split(inlineRegex)` together with `text.match(inlineRegex)`. -/
def splitInlineGo (fuel : Nat) (cs : List Char) :
    List (List Char) × List (List Char) :=
  splitByGo inlineMatchAt fuel cs

/-- Close of the fenced-block regex ```` ```(?:.*?)``` ````: the content
is lazy and `.` does not match a newline, so scan for the nearest triple
backtick, failing at a newline or the end of input. -/
def fenceClose : List Char → Option Nat
  | '\x60' :: '\x60' :: '\x60' :: _ => some 3
  | '\n' :: _ => none
  | _ :: rest => (fenceClose rest).map (fun n => n + 1)
  | [] => none

/-- Match of the fenced-block regex at the head of the list. -/
def fenceMatchAt : List Char → Option Nat
  | '\x60' :: '\x60' :: '\x60' :: rest => (fenceClose rest).map (fun n => n + 3)
  | _ => none

/-- `text.split(fenceRegex)` together with `text.match(fenceRegex)`. -/
def splitFencesGo (fuel : Nat) (cs : List Char) :
    List (List Char) × List (List Char) :=
  splitByGo fenceMatchAt fuel cs

/-- `text.includes(pat)`. -/
def containsSub (pat : List Char) : List Char → Bool
  | [] => pat.isEmpty
  | c :: rest => pat.isPrefixOf (c :: rest) || containsSub pat rest

/-- The reassembly loop of `processHtmlTags` and
`wrapHtmlTagsInBackticks`: process each part with `f` and put the
matched regions back verbatim between them. -/
def interleaveWith (f : List Char → List Char) :
    List (List Char) → List (List Char) → List Char
  | [], _ => []
  | p :: ps, [] => f p ++ interleaveWith f ps []
  | p :: ps, m :: ms => f p ++ (m ++ interleaveWith f ps ms)

/-- `processHtmlTags` of `src/formatter.ts` on a character list: split
away existing single-backtick spans, apply the tag replacement to the
remaining parts, and reassemble. -/
def processHtmlTagsL (cs : List Char) : List Char :=
  let split := splitInlineGo cs.length cs
  interleaveWith tagReplace split.1 split.2

/-- `processHtmlTags` of `src/formatter.ts`. -/
def processHtmlTags (text : String) : String :=
  String.mk (processHtmlTagsL text.data)

/-- `wrapHtmlTagsInBackticks` of `src/formatter.ts`: when the text
contains a triple backtick, split on the (single-line) fence regex,
process the parts and put the fence blocks back; otherwise process the
whole text. -/
def wrapHtmlTagsInBackticks (text : String) : String :=
  if containsSub "```".data text.data then
    let split := splitFencesGo text.data.length text.data
    String.mk (interleaveWith processHtmlTagsL split.1 split.2)
  else processHtmlTags text

/-! ## The Markdown renderer, `CommentFormatter` of `src/formatter.ts` -/

/-- The `HNCommentsSettings` interface of `src/settings.ts`. -/
structure HNCommentsSettings where
  enhancedLinks : Bool
  openNoteAutomatically : Bool
  filenameTemplate : String
  wrapHtmlTags : Bool

/-- The formatter together with its external pure collaborators: the
`DOMParser` (body child nodes of the parsed fragment) and the `Date`
round-trip `new Date(s).toISOString()`. -/
structure CommentFormatter where
  settings : HNCommentsSettings
  parseHtml : String → List DomNode
  toISO : String → String

/-- A character of the `escapeMarkdown` class `[\\`*_{}[\]()#+-.!]`.
Inside the class, `+-.` is a character range, so `,` (between `+` and
`.`) is escaped as well. -/
def mdSpecialChar (c : Char) : Bool :=
  c = '\\' || c = '\x60' || c = '*' || c = '_' || c = '\x7b' || c = '\x7d' ||
    c = '[' || c = ']' || c = '(' || c = ')' || c = '#' || c = '+' || c = ',' ||
    c = '-' || c = '.' || c = '!'

/-- `escapeMarkdown` of `src/formatter.ts`: prefix every special
character with a backslash. -/
def escapeMarkdown (text : String) : String :=
  String.mk
    (text.data.foldr (fun c acc => if mdSpecialChar c then '\\' :: c :: acc else c :: acc) [])

/-- `escapeFrontmatterString` of `src/formatter.ts`: the chained global
replacements, backslashes first. -/
def escapeFrontmatterString (text : String) : String :=
  jsReplaceAll
    (jsReplaceAll
      (jsReplaceAll (jsReplaceAll (jsReplaceAll text "\\" "\\\\") "\"" "\\\"")
        "\n" "\\n")
      "\r" "\\r")
    "\t" "\\t"

/-- `formatCommentText` of `src/formatter.ts`: parse the body, walk the
DOM to Markdown, optionally run the tag-wrapping pass, decode the
standard entities, and trim. -/
def formatCommentText (fmt : CommentFormatter) (html : String) : String :=
  let text := domToMarkdownList "body" (fmt.parseHtml html)
  let text := if fmt.settings.wrapHtmlTags then wrapHtmlTagsInBackticks text else text
  let text := decodeHtmlEntities text
  jsTrim text

/-- `getCommentUrl` of `src/formatter.ts`: only the comment id is used;
the `sourceUrl` argument is ignored. -/
def getCommentUrl (sourceUrl : String) (commentId : String) : String :=
  "https://news.ycombinator.com/item?id=" ++ commentId

/-- JavaScript `s.replace(pat, rep)` with a non-empty string pattern:
replace the first occurrence only. -/
def replaceFirstL (pat rep : List Char) : List Char → List Char
  | [] => []
  | c :: rest =>
      if pat.isPrefixOf (c :: rest) then rep ++ (c :: rest).drop pat.length
      else c :: replaceFirstL pat rep rest

/-- JavaScript `s.replace(pat, rep)` on strings. -/
def replaceFirst (s pat rep : String) : String :=
  String.mk (replaceFirstL pat.data rep.data s.data)

/-- The `authorText` computed by `formatComment`: a profile link when
enhanced links are enabled, the escaped author name otherwise. -/
def authorTextOf (fmt : CommentFormatter) (c : HNComment) : String :=
  if fmt.settings.enhancedLinks then
    "[" ++ escapeMarkdown c.author ++ "](https://news.ycombinator.com/user?id=" ++
      c.author ++ ")"
  else escapeMarkdown c.author

/-- The `timeText` computed by `formatComment`: a permalink around the
time string when enhanced links are enabled and the id carries the
`comment_` prefix of the API strategy, the raw time string otherwise. -/
def timeTextOf (fmt : CommentFormatter) (c : HNComment) (sourceUrl : String) : String :=
  if fmt.settings.enhancedLinks && (c.id != "" && jsStartsWith c.id "comment_") then
    "[" ++ c.time ++ "](" ++ getCommentUrl sourceUrl (replaceFirst c.id "comment_" "") ++ ")"
  else c.time

/-- `'  '.repeat(depth)`. -/
def indentOf (depth : Nat) : String :=
  String.join (List.replicate depth "  ")

/-- The re-indentation of the converted body under the summary line:
split on newlines, prefix every line, join back. -/
def indentLines (indent : String) (text : String) : String :=
  String.mk
    (joinNlL ((splitNlL text.data).map (fun line => indent.data ++ ("  ".data ++ line))))

mutual

/-- `formatComment` of `src/formatter.ts`: summary line, indented body,
then the recursively formatted children at `depth + 1`. -/
def formatComment (fmt : CommentFormatter) (sourceUrl : String) :
    HNComment → Nat → String
  | HNComment.mk cid cauthor ctext ctime clvl cchildren cpid, depth =>
      let c := HNComment.mk cid cauthor ctext ctime clvl cchildren cpid
      let indent := indentOf depth
      let markdown :=
        indent ++ "- **" ++ authorTextOf fmt c ++ "** | " ++ timeTextOf fmt c sourceUrl ++ "\n"
      let indentedText := indentLines indent (formatCommentText fmt ctext)
      markdown ++ indentedText ++ "\n\n" ++
        formatChildren fmt sourceUrl cchildren (depth + 1)

/-- The `forEach` over `comment.children` in `formatComment`. -/
def formatChildren (fmt : CommentFormatter) (sourceUrl : String) :
    List HNComment → Nat → String
  | [], _ => ""
  | c :: rest, depth =>
      formatComment fmt sourceUrl c depth ++ formatChildren fmt sourceUrl rest depth

end

/-- JavaScript truthiness of an optional string field. -/
def jsTruthyOpt (o : Option String) : Bool :=
  match o with
  | some s => s != ""
  | none => false

/-- The value behind an optional field (only read under `jsTruthyOpt`). -/
def optVal (o : Option String) : String :=
  o.getD ""

/-- The `forEach` over top-level comments in `formatComments`: a
horizontal rule between top-level comments, none after the last. -/
def formatTopComments (fmt : CommentFormatter) (sourceUrl : String) :
    List HNComment → String
  | [] => ""
  | [c] => formatComment fmt sourceUrl c 0
  | c :: c2 :: rest =>
      formatComment fmt sourceUrl c 0 ++ "---\n\n" ++
        formatTopComments fmt sourceUrl (c2 :: rest)

/-- `formatComments` of `src/formatter.ts`: YAML frontmatter, title
heading, comments heading, and the formatted forest. -/
def formatComments (fmt : CommentFormatter) (postInfo : HNPostInfo)
    (sourceUrl : String) : String :=
  let formattedDate := fmt.toISO postInfo.scrapedDate
  let md := "---\n" ++ "source: " ++ sourceUrl ++ "\n" ++ "post-id: " ++
    postInfo.postId ++ "\n" ++ "date: " ++ formattedDate ++ "\n" ++
    "comment-count: " ++ toString postInfo.commentCount ++ "\n"
  let md := md ++
    (if jsTruthyOpt postInfo.title then
      "title: \"" ++ escapeFrontmatterString (optVal postInfo.title) ++ "\"\n"
    else "")
  let md := md ++
    (if jsTruthyOpt postInfo.originalUrl then
      "original-url: " ++ optVal postInfo.originalUrl ++ "\n"
    else "")
  let md := md ++ "---\n\n"
  let md := md ++
    (if jsTruthyOpt postInfo.title then "# " ++ optVal postInfo.title ++ "\n\n"
    else "# Hacker News Comments\n\n")
  let md := md ++ "## Comments\n\n"
  md ++ formatTopComments fmt sourceUrl postInfo.comments

/-! ## Lemmas about the flat-list reconstruction -/

theorem findParentFrom_lt (rows : List RawRow) (l : Nat) :
    ∀ i j, findParentFrom rows l i = some j → j < i := by
  intro i
  induction i with
  | zero => intro j h; simp [findParentFrom] at h
  | succ i ih =>
      intro j h
      simp only [findParentFrom] at h
      by_cases hc : lvlAt rows i < l
      · rw [if_pos hc] at h
        cases h
        exact Nat.lt_succ_self i
      · rw [if_neg hc] at h
        exact Nat.lt_succ_of_lt (ih j h)

theorem findParentFrom_some_iff (rows : List RawRow) (l : Nat) :
    ∀ i j, findParentFrom rows l i = some j ↔
      (j < i ∧ lvlAt rows j < l ∧ ∀ k, j < k → k < i → ¬ lvlAt rows k < l) := by
  intro i
  induction i with
  | zero => intro j; simp [findParentFrom]
  | succ i ih =>
      intro j
      simp only [findParentFrom]
      by_cases hc : lvlAt rows i < l
      · rw [if_pos hc]
        constructor
        · intro h
          cases h
          exact ⟨Nat.lt_succ_self i, hc, fun k h1 h2 => by omega⟩
        · rintro ⟨hj, hl, hk⟩
          rcases Nat.lt_or_ge j i with hji | hij
          · exact absurd hc (hk i hji (Nat.lt_succ_self i))
          · have hji : j = i := by omega
            rw [hji]
      · rw [if_neg hc, ih j]
        constructor
        · rintro ⟨hj, hl, hk⟩
          refine ⟨by omega, hl, ?_⟩
          intro k h1 h2
          rcases Nat.lt_or_ge k i with h3 | h3
          · exact hk k h1 h3
          · have : k = i := by omega
            rw [this]; exact hc
        · rintro ⟨hj, hl, hk⟩
          have hji : j < i := by
            rcases Nat.lt_or_ge j i with h3 | h3
            · exact h3
            · have : j = i := by omega
              rw [this] at hl; exact absurd hl hc
          exact ⟨hji, hl, fun k h1 h2 => hk k h1 (by omega)⟩

theorem findParentFrom_none_iff (rows : List RawRow) (l : Nat) :
    ∀ i, findParentFrom rows l i = none ↔ ∀ j, j < i → ¬ lvlAt rows j < l := by
  intro i
  induction i with
  | zero => simp [findParentFrom]
  | succ i ih =>
      simp only [findParentFrom]
      by_cases hc : lvlAt rows i < l
      · rw [if_pos hc]
        constructor
        · intro h; cases h
        · intro h; exact absurd hc (h i (Nat.lt_succ_self i))
      · rw [if_neg hc, ih]
        constructor
        · intro h j hj
          rcases Nat.lt_or_ge j i with h3 | h3
          · exact h j h3
          · have : j = i := by omega
            rw [this]; exact hc
        · intro h j hj
          exact h j (by omega)

theorem mem_childIndices (rows : List RawRow) (j i : Nat) :
    i ∈ childIndices rows j ↔
      i < rows.length ∧ lvlAt rows i ≠ 0 ∧
        findParentFrom rows (lvlAt rows i) i = some j := by
  simp [childIndices, List.mem_filter, List.mem_range, and_assoc]

theorem mem_rootIndices (rows : List RawRow) (i : Nat) :
    i ∈ rootIndices rows ↔
      i < rows.length ∧
        (lvlAt rows i = 0 ∨ findParentFrom rows (lvlAt rows i) i = none) := by
  simp [rootIndices, List.mem_filter, List.mem_range, Option.isNone_iff_eq_none]

theorem childIndices_gt (rows : List RawRow) (j i : Nat)
    (h : i ∈ childIndices rows j) : j < i := by
  have h2 := (mem_childIndices rows j i).mp h
  exact findParentFrom_lt rows (lvlAt rows i) i j h2.2.2

theorem childIndices_nil_of_ge (rows : List RawRow) (i : Nat)
    (h : rows.length ≤ i) : childIndices rows i = [] := by
  rw [List.eq_nil_iff_forall_not_mem]
  intro k hk
  have h1 := (mem_childIndices rows i k).mp hk
  have h2 := findParentFrom_lt rows (lvlAt rows k) k i h1.2.2
  omega

theorem buildNode_level (rows : List RawRow) (f i : Nat) :
    (buildNode rows f i).level = (rows.getD i default).level := by
  cases f <;> simp [buildNode, HNComment.level]

theorem buildNode_id (rows : List RawRow) (f i : Nat) :
    (buildNode rows f i).id = (rows.getD i default).id := by
  cases f <;> simp [buildNode, HNComment.id]

theorem buildNode_parentId (rows : List RawRow) (f i : Nat) :
    (buildNode rows f i).parentId = parentIdField rows i := by
  cases f <;> simp [buildNode, HNComment.parentId]

theorem buildNode_children_succ (rows : List RawRow) (f i : Nat) :
    (buildNode rows (f + 1) i).children =
      (childIndices rows i).map (buildNode rows f) := by
  simp [buildNode, HNComment.children]

theorem buildNode_congr (rows : List RawRow) :
    ∀ f₁ f₂ i, rows.length - i ≤ f₁ → rows.length - i ≤ f₂ →
      buildNode rows f₁ i = buildNode rows f₂ i := by
  intro f₁
  induction f₁ with
  | zero =>
      intro f₂ i h1 h2
      cases f₂ with
      | zero => rfl
      | succ f =>
          have hge : rows.length ≤ i := by omega
          simp [buildNode, childIndices_nil_of_ge rows i hge]
  | succ f ih =>
      intro f₂ i h1 h2
      cases f₂ with
      | zero =>
          have hge : rows.length ≤ i := by omega
          simp [buildNode, childIndices_nil_of_ge rows i hge]
      | succ f₂ =>
          simp only [buildNode]
          congr 1
          apply List.map_congr_left
          intro j hj
          have hji : i < j := childIndices_gt rows i j hj
          have hjn : j < rows.length := ((mem_childIndices rows i j).mp hj).1
          exact ih f₂ j (by omega) (by omega)

theorem buildNode_eq_nodeAt (rows : List RawRow) (f i : Nat)
    (h : rows.length - i ≤ f) : buildNode rows f i = nodeAt rows i :=
  buildNode_congr rows f (rows.length - i) i h (Nat.le_refl _)

theorem nodeAt_children (rows : List RawRow) (i : Nat) (hi : i < rows.length) :
    (nodeAt rows i).children =
      (childIndices rows i).map (buildNode rows (rows.length - i - 1)) := by
  have h : rows.length - i = (rows.length - i - 1) + 1 := by omega
  rw [nodeAt, h, buildNode_children_succ]
  simp

theorem nodeAt_level (rows : List RawRow) (i : Nat) :
    (nodeAt rows i).level = lvlAt rows i :=
  buildNode_level rows _ i

theorem nodeAt_mem_children (rows : List RawRow) (i j : Nat)
    (hi : i < rows.length) (hl : lvlAt rows i ≠ 0)
    (hp : findParentFrom rows (lvlAt rows i) i = some j) :
    nodeAt rows i ∈ (nodeAt rows j).children := by
  have hji : j < i := findParentFrom_lt rows (lvlAt rows i) i j hp
  have hjn : j < rows.length := by omega
  rw [nodeAt_children rows j hjn]
  have hmem : i ∈ childIndices rows j :=
    (mem_childIndices rows j i).mpr ⟨hi, hl, hp⟩
  have heq : buildNode rows (rows.length - j - 1) i = nodeAt rows i :=
    buildNode_eq_nodeAt rows _ i (by omega)
  rw [← heq]
  exact List.mem_map_of_mem (buildNode rows (rows.length - j - 1)) hmem

/-- The forest built from a fixed row list (the image of `buildNode`
over the root indices); `buildCommentTree rows = rowForest (keptRows
rows)` holds by definition. -/
def rowForest (rs : List RawRow) : List HNComment :=
  (rootIndices rs).map (buildNode rs rs.length)

theorem buildCommentTree_eq (rows : List RawRow) :
    buildCommentTree rows = rowForest (keptRows rows) := rfl

theorem nodeAt_mem_rowForest (rows : List RawRow) (i : Nat)
    (hi : i < rows.length)
    (hroot : lvlAt rows i = 0 ∨ findParentFrom rows (lvlAt rows i) i = none) :
    nodeAt rows i ∈ rowForest rows := by
  have hmem : i ∈ rootIndices rows := (mem_rootIndices rows i).mpr ⟨hi, hroot⟩
  have heq : buildNode rows rows.length i = nodeAt rows i :=
    buildNode_eq_nodeAt rows _ i (by omega)
  rw [rowForest, ← heq]
  exact List.mem_map_of_mem (buildNode rows rows.length) hmem

theorem self_mem_flattenForest : ∀ (F : List HNComment), ∀ c ∈ F, c ∈ flattenForest F := by
  intro F
  induction F with
  | nil => intro c hc; cases hc
  | cons x rest ih =>
      intro c hc
      obtain ⟨i, a, t, ti, l, ch, p⟩ := x
      simp only [flattenForest, List.mem_cons, List.mem_append]
      rcases List.mem_cons.mp hc with hc | hc
      · exact Or.inl hc
      · exact Or.inr (Or.inr (ih c hc))

theorem mem_flattenForest_children :
    ∀ (F : List HNComment), ∀ x ∈ flattenForest F, ∀ y ∈ x.children, y ∈ flattenForest F
  | [] => by intro x hx; simp [flattenForest] at hx
  | HNComment.mk i a t ti l ch p :: rest => by
      intro x hx y hy
      simp only [flattenForest, List.mem_cons, List.mem_append] at hx ⊢
      rcases hx with rfl | hx | hx
      · simp only [HNComment.children] at hy
        exact Or.inr (Or.inl (self_mem_flattenForest ch y hy))
      · exact Or.inr (Or.inl (mem_flattenForest_children ch x hx y hy))
      · exact Or.inr (Or.inr (mem_flattenForest_children rest x hx y hy))
termination_by F => sizeOf F

theorem nodeAt_mem_flatten (rows : List RawRow) :
    ∀ i, i < rows.length → nodeAt rows i ∈ flattenForest (rowForest rows)
  | i, hi => by
      by_cases hroot : lvlAt rows i = 0 ∨ findParentFrom rows (lvlAt rows i) i = none
      · exact self_mem_flattenForest _ _ (nodeAt_mem_rowForest rows i hi hroot)
      · push_neg at hroot
        obtain ⟨hlvl, hne⟩ := hroot
        obtain ⟨j, hj⟩ := Option.ne_none_iff_exists'.mp hne
        have hji : j < i := findParentFrom_lt rows (lvlAt rows i) i j hj
        have hjn : j < rows.length := by omega
        have hrec := nodeAt_mem_flatten rows j hjn
        exact mem_flattenForest_children _ _ hrec _
          (nodeAt_mem_children rows i j hi hlvl hj)
termination_by i _ => i

theorem lvl_lt_of_mem_childIndices (rows : List RawRow) (i j : Nat)
    (h : j ∈ childIndices rows i) : lvlAt rows i < lvlAt rows j := by
  have h2 := (mem_childIndices rows i j).mp h
  have h3 := (findParentFrom_some_iff rows (lvlAt rows j) j i).mp h2.2.2
  exact h3.2.1

theorem strictForestB_cons (c : HNComment) (rest : List HNComment) :
    strictForestB (c :: rest) =
      (c.children.all (fun d => decide (c.level < d.level)) &&
        strictForestB c.children && strictForestB rest) := by
  obtain ⟨i, a, t, ti, l, ch, p⟩ := c
  simp [strictForestB, HNComment.children, HNComment.level]

theorem buildNode_children_zero (rows : List RawRow) (i : Nat) :
    (buildNode rows 0 i).children = [] := by
  simp [buildNode, HNComment.children]

theorem strictForest_map_buildNode (rows : List RawRow) :
    ∀ (fuel : Nat) (idxs : List Nat),
      strictForestB (idxs.map (buildNode rows fuel)) = true := by
  intro fuel
  induction fuel with
  | zero =>
      intro idxs
      induction idxs with
      | nil => simp [strictForestB]
      | cons i rest ihl =>
          rw [List.map_cons, strictForestB_cons, buildNode_children_zero, ihl]
          simp [strictForestB]
  | succ f ihf =>
      intro idxs
      induction idxs with
      | nil => simp [strictForestB]
      | cons i rest ihl =>
          rw [List.map_cons, strictForestB_cons, buildNode_children_succ, ihl,
            ihf (childIndices rows i)]
          simp only [Bool.and_true, Bool.true_and]
          rw [List.all_eq_true]
          intro d hd
          obtain ⟨j, hj, rfl⟩ := List.mem_map.mp hd
          rw [buildNode_level, buildNode_level]
          exact decide_eq_true (lvl_lt_of_mem_childIndices rows i j hj)

/-! ## Lemmas about the structured (API) strategy -/

theorem fetchRecStep_levels (store : Nat → Option HNItem) (ft : Nat → String)
    (recurse : List Nat → Nat → Option String → List HNComment)
    (hrec : ∀ ids lvl pid, levelsFromB lvl (recurse ids lvl pid) = true) :
    ∀ ids lvl pid, levelsFromB lvl (fetchRecStep store ft recurse ids lvl pid) = true := by
  intro ids
  induction ids with
  | nil => intro lvl pid; simp [fetchRecStep, levelsFromB]
  | cons cid rest ih =>
      intro lvl pid
      simp only [fetchRecStep]
      cases store cid with
      | none => exact ih lvl pid
      | some d =>
          cases hd : (d.deleted || d.dead) with
          | true => simp [hd, ih lvl pid]
          | false =>
              simp only [hd, Bool.false_eq_true, if_false, levelsFromB]
              rw [ih lvl pid]
              by_cases hk : d.kids.length > 0
              · simp [hk, hrec, levelsFromB]
              · simp [hk, levelsFromB]

theorem fetchCommentsRecursively_levels (store : Nat → Option HNItem)
    (ft : Nat → String) :
    ∀ fuel ids lvl pid,
      levelsFromB lvl (fetchCommentsRecursively store ft fuel ids lvl pid) = true := by
  intro fuel
  induction fuel with
  | zero =>
      intro ids lvl pid
      exact fetchRecStep_levels store ft _ (fun _ lvl _ => by simp [levelsFromB]) ids lvl pid
  | succ f ih =>
      intro ids lvl pid
      exact fetchRecStep_levels store ft _ ih ids lvl pid

/-! ## Claim C1 -/

/-- C1, counterexample.  The flat-list strategy copies the parsed
indentation level into `level` without normalising it: two rows at
levels 0 and 2 produce a child whose `level` is 2 under a parent whose
`level` is 0 (not parent + 1), and a single row at level 1 produces a
top-level comment whose `level` is 1, not 0.  So the claimed invariant
fails for forests produced by the HTML flat-list strategy. -/
theorem c1_level_invariant_counterexample :
    buildCommentTree [⟨"p", "alice", "t1", "x", 0⟩, ⟨"q", "bob", "t2", "y", 2⟩] =
      [HNComment.mk "p" "alice" "x" "t1" 0
        [HNComment.mk "q" "bob" "y" "t2" 2 [] (some "p")] none] ∧
    (buildCommentTree [⟨"r", "carol", "t3", "z", 1⟩]).map HNComment.level = [1] := by
  exact ⟨rfl, rfl⟩

/-- C1, amended.  The structured (API) strategy does satisfy the full
invariant: every forest it produces has children exactly one level
below their parent and roots at level 0 (for any store, time formatter
and fuel, hence for the forest returned by `fetchWithHackerNewsAPI`).
For the HTML flat-list strategy only a weaker invariant holds: every
child's `level` is strictly greater than its parent's, and every
top-level comment either has `level = 0` or is a fallback root, i.e.
no earlier kept row has a strictly smaller level. -/
theorem c1_level_invariant_amended :
    (∀ (store : Nat → Option HNItem) (ft : Nat → String) (fuel : Nat)
        (ids : List Nat) (pid : Option String),
        levelsFromB 0 (fetchCommentsRecursively store ft fuel ids 0 pid) = true) ∧
    (∀ (env : APIEnv) (itemId : String) (comments : List HNComment)
        (u t : Option String),
        fetchWithHackerNewsAPI env itemId = Except.ok (comments, u, t) →
          levelsFromB 0 comments = true) ∧
    (∀ rows : List RawRow, strictForestB (buildCommentTree rows) = true) ∧
    (∀ (rows : List RawRow) (x : HNComment), x ∈ buildCommentTree rows →
        x.level = 0 ∨
          ∃ i, i < (keptRows rows).length ∧ x = nodeAt (keptRows rows) i ∧
            lvlAt (keptRows rows) i = x.level ∧
            ∀ j, j < i → ¬ lvlAt (keptRows rows) j < x.level) := by
  refine ⟨?_, ?_, ?_, ?_⟩
  · intro store ft fuel ids pid
    exact fetchCommentsRecursively_levels store ft fuel ids 0 pid
  · intro env itemId comments u t h
    simp only [fetchWithHackerNewsAPI] at h
    split at h
    · cases h
    · split at h
      · cases h
        simp [levelsFromB]
      · cases h
        exact fetchCommentsRecursively_levels _ _ _ _ 0 none
  · intro rows
    rw [buildCommentTree_eq, rowForest]
    exact strictForest_map_buildNode (keptRows rows) _ _
  · intro rows x hx
    rw [buildCommentTree_eq, rowForest] at hx
    obtain ⟨i, hi, rfl⟩ := List.mem_map.mp hx
    have hmem := (mem_rootIndices (keptRows rows) i).mp hi
    have heq : buildNode (keptRows rows) (keptRows rows).length i =
        nodeAt (keptRows rows) i :=
      buildNode_eq_nodeAt (keptRows rows) _ i (by omega)
    rw [heq, nodeAt_level]
    rcases hmem.2 with h0 | hnone
    · exact Or.inl h0
    · refine Or.inr ⟨i, hmem.1, rfl, rfl, ?_⟩
      exact (findParentFrom_none_iff (keptRows rows) (lvlAt (keptRows rows) i) i).mp hnone

/-- Witness for `c1_level_invariant_amended` at concrete inputs. -/
theorem c1_level_invariant_amended_witness :
    levelsFromB 0
        (fetchCommentsRecursively (fun _ => none) (fun _ => "") 1 [5] 0 none) = true ∧
    strictForestB
        (buildCommentTree [⟨"a", "u", "t", "x", 0⟩, ⟨"b", "v", "s", "y", 2⟩]) = true ∧
    ((nodeAt (keptRows [⟨"r", "carol", "t3", "z", 1⟩]) 0).level = 0 ∨
      ∃ i, i < (keptRows [⟨"r", "carol", "t3", "z", 1⟩]).length ∧
        nodeAt (keptRows [⟨"r", "carol", "t3", "z", 1⟩]) 0 =
          nodeAt (keptRows [⟨"r", "carol", "t3", "z", 1⟩]) i ∧
        lvlAt (keptRows [⟨"r", "carol", "t3", "z", 1⟩]) i =
          (nodeAt (keptRows [⟨"r", "carol", "t3", "z", 1⟩]) 0).level ∧
        ∀ j, j < i →
          ¬ lvlAt (keptRows [⟨"r", "carol", "t3", "z", 1⟩]) j <
            (nodeAt (keptRows [⟨"r", "carol", "t3", "z", 1⟩]) 0).level) := by
  refine ⟨c1_level_invariant_amended.1 _ _ _ _ _, c1_level_invariant_amended.2.2.1 _, ?_⟩
  exact c1_level_invariant_amended.2.2.2 [⟨"r", "carol", "t3", "z", 1⟩] _
    (List.mem_singleton.mpr rfl)

/-! ## Claim C2 -/

/-- C2: in the flat-list reconstruction, a kept row at level 0 becomes a
top-level root; a row at level `L > 0` whose backward scan finds the
nearest prior row of strictly smaller level is attached as that row's
child with `parentId` set to that row's id (and the scan result is
exactly the nearest prior strictly-shallower row); a row at level
`L > 0` with no prior strictly-shallower row becomes a top-level root;
and in every case the row's node appears in the produced forest (it is
never discarded). -/
theorem c2_flat_list_reconstruction (rows : List RawRow) (i : Nat)
    (hi : i < (keptRows rows).length) :
    (lvlAt (keptRows rows) i = 0 →
        nodeAt (keptRows rows) i ∈ buildCommentTree rows) ∧
    (∀ j, lvlAt (keptRows rows) i ≠ 0 →
        findParentFrom (keptRows rows) (lvlAt (keptRows rows) i) i = some j →
          (j < i ∧ lvlAt (keptRows rows) j < lvlAt (keptRows rows) i ∧
            ∀ k, j < k → k < i →
              ¬ lvlAt (keptRows rows) k < lvlAt (keptRows rows) i) ∧
          nodeAt (keptRows rows) i ∈ (nodeAt (keptRows rows) j).children ∧
          (nodeAt (keptRows rows) i).parentId =
            some ((keptRows rows).getD j default).id) ∧
    (lvlAt (keptRows rows) i ≠ 0 →
        findParentFrom (keptRows rows) (lvlAt (keptRows rows) i) i = none →
          (∀ j, j < i → ¬ lvlAt (keptRows rows) j < lvlAt (keptRows rows) i) ∧
          nodeAt (keptRows rows) i ∈ buildCommentTree rows) ∧
    nodeAt (keptRows rows) i ∈ flattenForest (buildCommentTree rows) := by
  rw [buildCommentTree_eq]
  refine ⟨?_, ?_, ?_, ?_⟩
  · intro h0
    exact nodeAt_mem_rowForest (keptRows rows) i hi (Or.inl h0)
  · intro j hl hp
    refine ⟨(findParentFrom_some_iff (keptRows rows) (lvlAt (keptRows rows) i) i j).mp hp,
      nodeAt_mem_children (keptRows rows) i j hi hl hp, ?_⟩
    rw [nodeAt, buildNode_parentId, parentIdField]
    have hl2 : (lvlAt (keptRows rows) i == 0) = false := by
      simp [hl]
    rw [if_neg (by simp [hl2, hl]), hp]
  · intro hl hnone
    exact ⟨(findParentFrom_none_iff (keptRows rows) (lvlAt (keptRows rows) i) i).mp hnone,
      nodeAt_mem_rowForest (keptRows rows) i hi (Or.inr hnone)⟩
  · exact nodeAt_mem_flatten (keptRows rows) i hi

/-- Witness for `c2_flat_list_reconstruction` on two concrete rows at
levels 0 and 1: the second row is attached under the first with its
`parentId` set to `"a"`, and both rows appear in the forest. -/
theorem c2_flat_list_reconstruction_witness :
    nodeAt (keptRows [⟨"a", "u", "t", "x", 0⟩, ⟨"b", "v", "s", "y", 1⟩]) 1 ∈
      (nodeAt (keptRows [⟨"a", "u", "t", "x", 0⟩, ⟨"b", "v", "s", "y", 1⟩]) 0).children ∧
    (nodeAt (keptRows [⟨"a", "u", "t", "x", 0⟩, ⟨"b", "v", "s", "y", 1⟩]) 1).parentId =
      some "a" ∧
    nodeAt (keptRows [⟨"a", "u", "t", "x", 0⟩, ⟨"b", "v", "s", "y", 1⟩]) 1 ∈
      flattenForest
        (buildCommentTree [⟨"a", "u", "t", "x", 0⟩, ⟨"b", "v", "s", "y", 1⟩]) := by
  have h := c2_flat_list_reconstruction
    [⟨"a", "u", "t", "x", 0⟩, ⟨"b", "v", "s", "y", 1⟩] 1 (by decide)
  have h2 := h.2.1 0 (by decide) (by decide)
  exact ⟨h2.2.1, h2.2.2.trans (by decide), h.2.2.2⟩

/-! ## Claim C6 -/

theorem countTotalComments_eq_reachableNodes :
    ∀ cs : List HNComment, countTotalComments cs = reachableNodes cs
  | [] => by simp [countTotalComments, sumChildCounts, reachableNodes]
  | HNComment.mk i a t ti l ch p :: rest => by
      have h1 := countTotalComments_eq_reachableNodes ch
      have h2 := countTotalComments_eq_reachableNodes rest
      simp only [countTotalComments, sumChildCounts, reachableNodes,
        List.length_cons] at h1 h2 ⊢
      omega
termination_by cs => sizeOf cs

theorem scrapeHtmlFallback_count (env : ScrapeEnv) (itemId : String)
    (info : HNPostInfo) (h : scrapeHtmlFallback env itemId = Except.ok info) :
    info.commentCount = countTotalComments info.comments := by
  simp only [scrapeHtmlFallback] at h
  split at h
  · cases h
  · cases h
    rfl

/-- C6: whenever an acquisition succeeds, the `commentCount` of the
returned `HNPostInfo` is the recomputed total of the returned forest
(`countTotalComments`), and that total equals the number of nodes
reachable from the forest, one per node transitively; it is never taken
from the source's `descendants` (or any other reported) count field. -/
theorem c6_comment_count (env : ScrapeEnv) (url : String) (info : HNPostInfo)
    (h : scrapeComments env url = Except.ok info) :
    info.commentCount = countTotalComments info.comments ∧
    info.commentCount = reachableNodes info.comments := by
  have hc : info.commentCount = countTotalComments info.comments := by
    simp only [scrapeComments] at h
    split at h
    · cases h
    · split at h
      · cases h
      · split at h
        · split at h
          · cases h
            rfl
          · exact scrapeHtmlFallback_count _ _ _ h
        · exact scrapeHtmlFallback_count _ _ _ h
  exact ⟨hc, hc.trans (countTotalComments_eq_reachableNodes info.comments)⟩

/-- Witness for `c6_comment_count`: a scrape against an environment
whose API strategy fails and whose HTML document holds one comment row. -/
theorem c6_comment_count_witness :
    ({ comments := buildCommentTree [⟨"a", "u", "t", "x", 0⟩]
       originalUrl := none
       postId := "1"
       commentCount := countTotalComments (buildCommentTree [⟨"a", "u", "t", "x", 0⟩])
       scrapedDate := "T"
       title := some "Unknown Title" : HNPostInfo }).commentCount =
      countTotalComments
        ({ comments := buildCommentTree [⟨"a", "u", "t", "x", 0⟩]
           originalUrl := none
           postId := "1"
           commentCount := countTotalComments (buildCommentTree [⟨"a", "u", "t", "x", 0⟩])
           scrapedDate := "T"
           title := some "Unknown Title" : HNPostInfo }).comments ∧
    ({ comments := buildCommentTree [⟨"a", "u", "t", "x", 0⟩]
       originalUrl := none
       postId := "1"
       commentCount := countTotalComments (buildCommentTree [⟨"a", "u", "t", "x", 0⟩])
       scrapedDate := "T"
       title := some "Unknown Title" : HNPostInfo }).commentCount =
      reachableNodes
        ({ comments := buildCommentTree [⟨"a", "u", "t", "x", 0⟩]
           originalUrl := none
           postId := "1"
           commentCount := countTotalComments (buildCommentTree [⟨"a", "u", "t", "x", 0⟩])
           scrapedDate := "T"
           title := some "Unknown Title" : HNPostInfo }).comments :=
  c6_comment_count
    ⟨⟨fun _ => none, fun _ => none, fun _ => "", 0⟩,
      some ⟨[⟨"a", "u", "t", "x", 0⟩], none, none⟩, "T"⟩
    "https://news.ycombinator.com/item?id=1" _ rfl

/-! ## Claim C7 -/

/-- C7: when the structured strategy throws or yields zero comments, the
acquisition falls through to the HTML strategy and, provided the page
fetch succeeds, returns its parse result; in particular when the HTML
rows also produce zero top-level comments the result is a successful
`HNPostInfo` with an empty forest and count zero, not a thrown
failure. -/
theorem c7_api_empty_falls_back (env : ScrapeEnv) (url : String)
    (itemId : String) (doc : HtmlDoc)
    (hv : isValidHNUrl url = true)
    (hx : extractItemId url = some itemId)
    (hapi : fetchWithHackerNewsAPI env.api itemId = Except.error () ∨
      ∃ u t, fetchWithHackerNewsAPI env.api itemId = Except.ok ([], u, t))
    (hhtml : env.html = some doc) :
    scrapeComments env url =
      Except.ok
        { comments := buildCommentTree doc.rows
          originalUrl := jsOrNone doc.titleHref
          postId := itemId
          commentCount := countTotalComments (buildCommentTree doc.rows)
          scrapedDate := env.now
          title := some (parseTitle doc) } ∧
    (buildCommentTree doc.rows = [] →
      ∃ info, scrapeComments env url = Except.ok info ∧
        info.comments = [] ∧ info.commentCount = 0) := by
  have hfall : scrapeHtmlFallback env itemId =
      Except.ok
        { comments := buildCommentTree doc.rows
          originalUrl := jsOrNone doc.titleHref
          postId := itemId
          commentCount := countTotalComments (buildCommentTree doc.rows)
          scrapedDate := env.now
          title := some (parseTitle doc) } := by
    simp only [scrapeHtmlFallback, hhtml, parseComments]
  have hmain : scrapeComments env url =
      Except.ok
        { comments := buildCommentTree doc.rows
          originalUrl := jsOrNone doc.titleHref
          postId := itemId
          commentCount := countTotalComments (buildCommentTree doc.rows)
          scrapedDate := env.now
          title := some (parseTitle doc) } := by
    simp only [scrapeComments, hv, Bool.not_true, Bool.false_eq_true, if_false, hx]
    rcases hapi with hapi | ⟨u, t, hapi⟩
    · rw [hapi]
      exact hfall
    · rw [hapi]
      simp only [List.length_nil, gt_iff_lt, Nat.lt_irrefl, if_false]
      exact hfall
  refine ⟨hmain, ?_⟩
  intro h0
  refine ⟨_, hmain, ?_, ?_⟩
  · exact h0
  · show countTotalComments (buildCommentTree doc.rows) = 0
    rw [h0]
    simp [countTotalComments, sumChildCounts]

/-- Witness for `c7_api_empty_falls_back`: failing API store, empty HTML
document. -/
theorem c7_api_empty_falls_back_witness :
    scrapeComments
        ⟨⟨fun _ => none, fun _ => none, fun _ => "", 0⟩, some ⟨[], none, none⟩, "T"⟩
        "https://news.ycombinator.com/item?id=1" =
      Except.ok
        { comments := buildCommentTree ([] : List RawRow)
          originalUrl := jsOrNone none
          postId := "1"
          commentCount := countTotalComments (buildCommentTree ([] : List RawRow))
          scrapedDate := "T"
          title := some (parseTitle ⟨[], none, none⟩) } ∧
    (buildCommentTree ([] : List RawRow) = [] →
      ∃ info,
        scrapeComments
            ⟨⟨fun _ => none, fun _ => none, fun _ => "", 0⟩, some ⟨[], none, none⟩, "T"⟩
            "https://news.ycombinator.com/item?id=1" =
          Except.ok info ∧ info.comments = [] ∧ info.commentCount = 0) :=
  c7_api_empty_falls_back
    ⟨⟨fun _ => none, fun _ => none, fun _ => "", 0⟩, some ⟨[], none, none⟩, "T"⟩
    "https://news.ycombinator.com/item?id=1" "1" ⟨[], none, none⟩
    (by decide) (by decide) (Or.inl rfl) rfl

/-! ## Claim C8 -/

/-- The canonical item-URL shape described by the specification: one of
the two accepted schemes, the forum host, the `/item?id=` path, and at
least one digit (the regex has no end anchor, so trailing characters are
allowed). -/
def urlShape (url : String) : Prop :=
  ∃ tail : List Char,
    (url.data = canonPrefixHttp ++ tail ∨ url.data = canonPrefixHttps ++ tail) ∧
    firstIsDigit tail = true

theorem isPrefixOf_append_of_le (p : List Char) :
    ∀ (xs ys : List Char), p.length ≤ xs.length →
      p.isPrefixOf (xs ++ ys) = p.isPrefixOf xs := by
  induction p with
  | nil => intro xs ys h; simp [List.isPrefixOf]
  | cons a ps ih =>
      intro xs ys h
      cases xs with
      | nil => simp at h
      | cons x xst =>
          simp only [List.cons_append, List.isPrefixOf, List.append_eq]
          rw [ih xst ys (by simpa using h)]

theorem extractFrom_skip :
    ∀ (cs tail : List Char),
      (∀ k, k < cs.length → itemIdPat.isPrefixOf (cs.drop k ++ tail) = false) →
      extractFrom (cs ++ tail) = extractFrom tail := by
  intro cs
  induction cs with
  | nil => intro tail h; simp
  | cons c rest ih =>
      intro tail h
      have h0 := h 0 (by simp)
      simp only [List.drop_zero] at h0
      rw [List.cons_append, extractFrom]
      rw [List.cons_append] at h0
      simp only [h0, Bool.false_eq_true, if_false]
      exact ih tail (fun k hk => by
        have := h (k + 1) (by simpa using Nat.succ_lt_succ hk)
        simpa using this)

/-- The scheme-and-host part of the `http` canonical prefix. -/
def preHeadHttp : List Char := "http://news.ycombinator.com/".data

/-- The scheme-and-host part of the `https` canonical prefix. -/
def preHeadHttps : List Char := "https://news.ycombinator.com/".data

theorem canonPrefixHttp_split : canonPrefixHttp = preHeadHttp ++ itemIdPat := by decide

theorem canonPrefixHttps_split : canonPrefixHttps = preHeadHttps ++ itemIdPat := by decide

theorem preHeadHttp_clean :
    ∀ k, k < preHeadHttp.length →
      itemIdPat.isPrefixOf (preHeadHttp.drop k ++ itemIdPat) = false := by decide

theorem preHeadHttps_clean :
    ∀ k, k < preHeadHttps.length →
      itemIdPat.isPrefixOf (preHeadHttps.drop k ++ itemIdPat) = false := by decide

theorem extractFrom_pat (tail : List Char) (h : firstIsDigit tail = true) :
    extractFrom (itemIdPat ++ tail) = some (tail.takeWhile Char.isDigit) := by
  cases tail with
  | nil => cases h
  | cons c ct =>
      have hc : Char.isDigit c = true := h
      rw [show itemIdPat ++ (c :: ct) =
        'i' :: 't' :: 'e' :: 'm' :: '?' :: 'i' :: 'd' :: '=' :: c :: ct from rfl]
      rw [extractFrom]
      rw [show itemIdPat.isPrefixOf
          ('i' :: 't' :: 'e' :: 'm' :: '?' :: 'i' :: 'd' :: '=' :: c :: ct) = true from by
        rw [List.isPrefixOf_iff_prefix]
        exact ⟨c :: ct, rfl⟩]
      rw [if_pos rfl]
      rw [show List.drop itemIdPat.length
          ('i' :: 't' :: 'e' :: 'm' :: '?' :: 'i' :: 'd' :: '=' :: c :: ct) = c :: ct from rfl]
      simp [List.takeWhile_cons, hc]

/-- The skip hypothesis holds for a clean head: the windows reaching
into the pattern-plus-tail region are truncated to the concrete head
plus pattern, where the search fails everywhere. -/
theorem extractFrom_head_skip (head tail : List Char)
    (hclean : ∀ k, k < head.length →
      itemIdPat.isPrefixOf (head.drop k ++ itemIdPat) = false) :
    extractFrom (head ++ (itemIdPat ++ tail)) = extractFrom (itemIdPat ++ tail) := by
  apply extractFrom_skip
  intro k hk
  rw [← List.append_assoc]
  rw [isPrefixOf_append_of_le]
  · exact hclean k hk
  · have h1 : itemIdPat.length = 8 := by decide
    have h2 : (head.drop k).length = head.length - k := by simp
    simp only [List.length_append, h1, h2]
    omega

theorem isValidHNUrl_iff_urlShape (url : String) :
    isValidHNUrl url = true ↔ urlShape url := by
  simp only [isValidHNUrl, Bool.or_eq_true, Bool.and_eq_true, List.isPrefixOf_iff_prefix]
  constructor
  · rintro (⟨⟨t, ht⟩, hd⟩ | ⟨⟨t, ht⟩, hd⟩)
    · refine ⟨t, Or.inl ht.symm, ?_⟩
      rw [← ht, List.drop_left] at hd
      exact hd
    · refine ⟨t, Or.inr ht.symm, ?_⟩
      rw [← ht, List.drop_left] at hd
      exact hd
  · rintro ⟨t, (ht | ht), hd⟩
    · exact Or.inl ⟨⟨t, ht.symm⟩, by rw [ht, List.drop_left]; exact hd⟩
    · exact Or.inr ⟨⟨t, ht.symm⟩, by rw [ht, List.drop_left]; exact hd⟩

/-- C8: a URL that fails the shape test makes `scrapeComments` return
the invalid-URL error immediately, for every environment (so before and
independently of any network activity); the shape test accepts exactly
the strings starting with an accepted scheme, the forum host, the
`/item?id=` path and a digit; and on every accepted string the item id
is extracted purely syntactically as the maximal digit run following
`item?id=`. -/
theorem c8_url_validation :
    (∀ (url : String) (env : ScrapeEnv), isValidHNUrl url = false →
        scrapeComments env url = Except.error invalidUrlMsg) ∧
    (∀ url : String, isValidHNUrl url = true ↔ urlShape url) ∧
    (∀ (url : String) (tail : List Char),
        (url.data = canonPrefixHttp ++ tail ∨ url.data = canonPrefixHttps ++ tail) →
        firstIsDigit tail = true →
        extractItemId url = some (String.mk (tail.takeWhile Char.isDigit))) := by
  refine ⟨?_, isValidHNUrl_iff_urlShape, ?_⟩
  · intro url env h
    simp [scrapeComments, h]
  · intro url tail hd hdig
    rw [extractItemId]
    rcases hd with hd | hd
    · rw [hd, canonPrefixHttp_split, List.append_assoc,
        extractFrom_head_skip preHeadHttp tail preHeadHttp_clean,
        extractFrom_pat tail hdig]
      rfl
    · rw [hd, canonPrefixHttps_split, List.append_assoc,
        extractFrom_head_skip preHeadHttps tail preHeadHttps_clean,
        extractFrom_pat tail hdig]
      rfl

/-- Witness for `c8_url_validation` at concrete URLs. -/
theorem c8_url_validation_witness :
    scrapeComments
        ⟨⟨fun _ => none, fun _ => none, fun _ => "", 0⟩, none, "T"⟩
        "https://example.com/item?id=1" = Except.error invalidUrlMsg ∧
    (isValidHNUrl "https://news.ycombinator.com/item?id=42" = true ↔
      urlShape "https://news.ycombinator.com/item?id=42") ∧
    extractItemId "https://news.ycombinator.com/item?id=42&x=1" =
      some (String.mk (("42&x=1".data).takeWhile Char.isDigit)) := by
  refine ⟨c8_url_validation.1 _ _ (by decide), c8_url_validation.2.1 _, ?_⟩
  exact c8_url_validation.2.2 "https://news.ycombinator.com/item?id=42&x=1"
    ("42&x=1".data) (Or.inr (by decide)) (by decide)

/-! ## Lemmas about the tag-wrapping scanners -/

theorem fenceMatchAt_pos : ∀ (cs : List Char) (n : Nat),
    fenceMatchAt cs = some n → 0 < n := by
  intro cs n h
  unfold fenceMatchAt at h
  split at h
  · obtain ⟨m, hm, rfl⟩ := Option.map_eq_some'.mp h
    omega
  · cases h

theorem inlineMatchAt_pos : ∀ (cs : List Char) (n : Nat),
    inlineMatchAt cs = some n → 0 < n := by
  intro cs n h
  unfold inlineMatchAt at h
  split at h
  · simp only [] at h
    split at h
    · cases h
    · split at h
      · cases h
        omega
      · cases h
  · cases h

theorem tagMatchAt_pos : ∀ (cs : List Char) (n : Nat),
    tagMatchAt cs = some n → 0 < n := by
  intro cs n h
  unfold tagMatchAt at h
  split at h
  · simp only [] at h
    split at h
    · split at h
      · obtain ⟨m, hm, rfl⟩ := Option.map_eq_some'.mp h
        omega
      · cases h
    · cases h
  · cases h

theorem splitByGo_parts_ne_nil (matchAt : List Char → Option Nat) :
    ∀ (fuel : Nat) (cs : List Char), (splitByGo matchAt fuel cs).1 ≠ [] := by
  intro fuel
  induction fuel with
  | zero => intro cs; simp [splitByGo]
  | succ f ih =>
      intro cs
      cases cs with
      | nil => simp [splitByGo]
      | cons c rest =>
          simp only [splitByGo]
          cases hm : matchAt (c :: rest) with
          | some n => simp
          | none =>
              rcases h2 : splitByGo matchAt f rest with ⟨ps, ms⟩
              cases ps with
              | nil => simp
              | cons p ps' => simp

theorem interleaveWith_id_cons (c : Char) (p : List Char)
    (ps ms : List (List Char)) :
    interleaveWith id ((c :: p) :: ps) ms = c :: interleaveWith id (p :: ps) ms := by
  cases ms <;> simp [interleaveWith]

theorem splitByGo_cons_some (matchAt : List Char → Option Nat) (f : Nat)
    (c : Char) (rest : List Char) (n : Nat) (hm : matchAt (c :: rest) = some n) :
    splitByGo matchAt (f + 1) (c :: rest) =
      ([] :: (splitByGo matchAt f ((c :: rest).drop n)).1,
        (c :: rest).take n :: (splitByGo matchAt f ((c :: rest).drop n)).2) := by
  simp only [splitByGo, hm]

theorem splitByGo_cons_none (matchAt : List Char → Option Nat) (f : Nat)
    (c : Char) (rest : List Char) (hm : matchAt (c :: rest) = none)
    (p : List Char) (ps ms : List (List Char))
    (h2 : splitByGo matchAt f rest = (p :: ps, ms)) :
    splitByGo matchAt (f + 1) (c :: rest) = ((c :: p) :: ps, ms) := by
  simp only [splitByGo, hm, h2]

theorem splitByGo_reassemble (matchAt : List Char → Option Nat)
    (hpos : ∀ cs n, matchAt cs = some n → 0 < n) :
    ∀ (fuel : Nat) (cs : List Char), cs.length ≤ fuel →
      interleaveWith id (splitByGo matchAt fuel cs).1 (splitByGo matchAt fuel cs).2 = cs := by
  intro fuel
  induction fuel with
  | zero =>
      intro cs h
      simp [splitByGo, interleaveWith]
  | succ f ih =>
      intro cs h
      cases cs with
      | nil => simp [splitByGo, interleaveWith]
      | cons c rest =>
          simp only [List.length_cons] at h
          cases hm : matchAt (c :: rest) with
          | some n =>
              have hn := hpos _ _ hm
              have hlen : ((c :: rest).drop n).length ≤ f := by
                simp only [List.length_drop, List.length_cons]
                omega
              rw [splitByGo_cons_some matchAt f c rest n hm]
              have ihd := ih ((c :: rest).drop n) hlen
              simp only [interleaveWith, id]
              rw [ihd, List.take_append_drop]
              simp
          | none =>
              rcases h2 : splitByGo matchAt f rest with ⟨ps, ms⟩
              have ihr := ih rest (by omega)
              rw [h2] at ihr
              cases ps with
              | nil =>
                  exact absurd (congrArg Prod.fst h2)
                    (by simpa using splitByGo_parts_ne_nil matchAt f rest)
              | cons p ps' =>
                  rw [splitByGo_cons_none matchAt f c rest hm p ps' ms h2]
                  rw [interleaveWith_id_cons]
                  rw [ihr]

theorem tagReplaceGo_no_match :
    ∀ (fuel : Nat) (cs : List Char), containsSub ltEnt cs = false →
      tagReplaceGo fuel cs = cs := by
  intro fuel
  induction fuel with
  | zero => intro cs h; rfl
  | succ f ih =>
      intro cs h
      cases cs with
      | nil => rfl
      | cons c rest =>
          simp only [containsSub, Bool.or_eq_false_iff] at h
          have hmatch : tagMatchAt (c :: rest) = none := by
            unfold tagMatchAt
            rw [if_neg]
            simp [h.1]
          simp only [tagReplaceGo, hmatch]
          rw [ih rest h.2]

/-! ## Claim C4 -/

/-- C4, counterexample.  The tag-wrapping regex was deliberately changed
(`changed by @gapmiss`) to look for the entity forms `&lt;`/`&gt;`, so
tag text written with literal angle brackets — the form produced by the
DOM walk, which decodes entities — is not matched: a body text
containing a literal `<div>` outside any code region passes through the
pass unchanged, with no backticks added. -/
theorem c4_tag_wrapping_counterexample :
    wrapHtmlTagsInBackticks "a <div> b" = "a <div> b" ∧
    processHtmlTags "a <div> b" = "a <div> b" := by
  exact ⟨by decide, by decide⟩

/-- C4, amended.  The tag matcher operates on the entity forms
`&lt;`/`&gt;` (optional slash, tag name, attribute clauses, optional
trailing slash) in the text that remains after excluding code regions,
wrapping each such match in single backticks; text containing no `&lt;`
is left entirely unchanged by the replacement, and in particular
literal-bracket tags are never wrapped. -/
theorem c4_tag_wrapping_amended :
    (∀ cs : List Char, containsSub ltEnt cs = false → tagReplace cs = cs) ∧
    processHtmlTags "see &lt;div&gt; here" = "see `&lt;div&gt;` here" ∧
    processHtmlTags "x &lt;a href=\"y\" /&gt; z" = "x `&lt;a href=\"y\" /&gt;` z" ∧
    wrapHtmlTagsInBackticks "see <div> and &lt;b&gt;" = "see <div> and `&lt;b&gt;`" := by
  refine ⟨?_, by decide, by decide, by decide⟩
  intro cs h
  exact tagReplaceGo_no_match cs.length cs h

/-- Witness for `c4_tag_wrapping_amended` at a concrete input. -/
theorem c4_tag_wrapping_amended_witness :
    tagReplace "plain text".data = "plain text".data :=
  c4_tag_wrapping_amended.1 ("plain text".data) (by decide)

/-! ## Claim C5 -/

/-- C5, counterexample.  The fence regex ```` ```(?:.*?)``` ```` cannot
match across newlines, so a fenced block whose delimiters sit on their
own lines is not excluded by the fence pass; when its content also
contains a stray backtick, the inline-span pass mis-brackets the
content and the tag matcher rewrites text inside the fenced region:
the region between the triple-backtick delimiters is not left
byte-for-byte unchanged. -/
theorem c5_code_regions_counterexample :
    wrapHtmlTagsInBackticks "```\na ` b &lt;div&gt;\n```" =
      "```\na ` b `&lt;div&gt;`\n```" ∧
    ("```\na ` b `&lt;div&gt;`\n```" : String) ≠ "```\na ` b &lt;div&gt;\n```" := by
  exact ⟨by decide, by decide⟩

/-- C5, amended.  Both split passes are lossless — every matched region
(single-line fenced block, inline single-backtick span) is re-emitted
verbatim, in place, with the tag replacement applied only to the text
between them; fenced regions whose delimiters lie on one line and
inline spans are therefore preserved byte-for-byte, but multiline
fenced regions are not recognised by the fence matcher and are not
reliably protected. -/
theorem c5_code_regions_amended :
    (∀ cs : List Char,
        interleaveWith id (splitFencesGo cs.length cs).1
          (splitFencesGo cs.length cs).2 = cs) ∧
    (∀ cs : List Char,
        interleaveWith id (splitInlineGo cs.length cs).1
          (splitInlineGo cs.length cs).2 = cs) ∧
    wrapHtmlTagsInBackticks "&lt;p&gt; ```&lt;div&gt;``` ok" =
      "`&lt;p&gt;` ```&lt;div&gt;``` ok" ∧
    processHtmlTags "`&lt;i&gt;` and &lt;b&gt;" = "`&lt;i&gt;` and `&lt;b&gt;`" := by
  refine ⟨?_, ?_, by decide, by decide⟩
  · intro cs
    exact splitByGo_reassemble fenceMatchAt fenceMatchAt_pos cs.length cs (Nat.le_refl _)
  · intro cs
    exact splitByGo_reassemble inlineMatchAt inlineMatchAt_pos cs.length cs (Nat.le_refl _)

/-! ## Claim C3 -/

/-- C3: an anchor whose href fails the scheme allow-list is rendered as
its plain text content only — no link markup, the href dropped from the
output; an anchor whose href passes becomes a Markdown link
`[text](href)`; `javascript:alert(1)` fails the allow-list, and a body
consisting of such an anchor renders as its text alone. -/
theorem c3_unsafe_anchor_degrades :
    (∀ (parentTag tag : String) (attrs : List (String × String))
        (children rest : List DomNode), jsToLower tag = "a" →
        isSafeUrl ((getAttr attrs "href").getD "") = false →
        domToMarkdownList parentTag (DomNode.elem tag attrs children :: rest) =
          textContentList children ++ domToMarkdownList parentTag rest) ∧
    (∀ (parentTag tag : String) (attrs : List (String × String))
        (children rest : List DomNode), jsToLower tag = "a" →
        isSafeUrl ((getAttr attrs "href").getD "") = true →
        domToMarkdownList parentTag (DomNode.elem tag attrs children :: rest) =
          ("[" ++ textContentList children ++ "](" ++
              (getAttr attrs "href").getD "" ++ ")") ++
            domToMarkdownList parentTag rest) ∧
    isSafeUrl "javascript:alert(1)" = false ∧
    domToMarkdownList "body"
        [DomNode.elem "a" [("href", "javascript:alert(1)")] [DomNode.text "click"]] =
      "click" := by
  have hgen : ∀ (parentTag tag : String) (attrs : List (String × String))
      (children rest : List DomNode), jsToLower tag = "a" →
      domToMarkdownList parentTag (DomNode.elem tag attrs children :: rest) =
        (if isSafeUrl ((getAttr attrs "href").getD "") then
          "[" ++ textContentList children ++ "](" ++
            (getAttr attrs "href").getD "" ++ ")"
        else textContentList children) ++ domToMarkdownList parentTag rest := by
    intro parentTag tag attrs children rest ht
    rw [domToMarkdownList]
    rw [ht]
    simp only []
    rw [if_neg (by decide : ¬ ("a" : String) = "p")]
    simp only [if_true]
  refine ⟨?_, ?_, by decide, ?_⟩
  · intro parentTag tag attrs children rest ht hu
    rw [hgen parentTag tag attrs children rest ht, if_neg (by simp [hu])]
  · intro parentTag tag attrs children rest ht hu
    rw [hgen parentTag tag attrs children rest ht, if_pos (by simp [hu])]
  · rw [hgen "body" "a" [("href", "javascript:alert(1)")] [DomNode.text "click"] []
      (by decide), if_neg (by decide)]
    rw [domToMarkdownList]
    rw [textContentList, textContentList]
    simp

/-- Witness for `c3_unsafe_anchor_degrades`: the unsafe branch at a
`javascript:` href and the safe branch at an `https:` href. -/
theorem c3_unsafe_anchor_degrades_witness :
    domToMarkdownList "body"
        [DomNode.elem "a" [("href", "javascript:alert(1)")] [DomNode.text "x"]] =
      textContentList [DomNode.text "x"] ++ domToMarkdownList "body" [] ∧
    domToMarkdownList "body"
        [DomNode.elem "a" [("href", "https://example.com")] [DomNode.text "x"]] =
      ("[" ++ textContentList [DomNode.text "x"] ++ "](" ++
          (getAttr [("href", "https://example.com")] "href").getD "" ++ ")") ++
        domToMarkdownList "body" [] := by
  refine ⟨?_, ?_⟩
  · exact c3_unsafe_anchor_degrades.1 "body" "a" [("href", "javascript:alert(1)")]
      [DomNode.text "x"] [] (by decide) (by decide)
  · exact c3_unsafe_anchor_degrades.2.1 "body" "a" [("href", "https://example.com")]
      [DomNode.text "x"] [] (by decide) (by decide)

/-! ## Claim C9 -/

/-- C9: the renderer is a pure function of the formatter (settings and
external pure collaborators), the `HNPostInfo` and the source URL: two
invocations on equal arguments produce byte-identical output.  In the
embedding `HNPostInfo` is an immutable value, so no invocation can
mutate it. -/
theorem c9_renderer_deterministic (fmt : CommentFormatter) (p q : HNPostInfo)
    (u v : String) (hp : p = q) (hu : u = v) :
    formatComments fmt p u = formatComments fmt q v := by
  rw [hp, hu]

/-- Witness for `c9_renderer_deterministic` at a concrete post. -/
theorem c9_renderer_deterministic_witness :
    formatComments
        ⟨⟨false, true, "HN - x", true⟩, fun _ => [], fun s => s⟩
        ⟨[], none, "1", 0, "T", none⟩ "u" =
      formatComments
        ⟨⟨false, true, "HN - x", true⟩, fun _ => [], fun s => s⟩
        ⟨[], none, "1", 0, "T", none⟩ "u" :=
  c9_renderer_deterministic
    ⟨⟨false, true, "HN - x", true⟩, fun _ => [], fun s => s⟩
    ⟨[], none, "1", 0, "T", none⟩ ⟨[], none, "1", 0, "T", none⟩ "u" "u" rfl rfl

/-! ## Claim C10 -/

/-- The time text never depends on the `sourceUrl` argument, because
`getCommentUrl` discards it. -/
theorem timeTextOf_src_indep (fmt : CommentFormatter) (c : HNComment)
    (s₁ s₂ : String) : timeTextOf fmt c s₁ = timeTextOf fmt c s₂ := rfl

mutual

theorem formatComment_src_indep (fmt : CommentFormatter) (s₁ s₂ : String) :
    ∀ (c : HNComment) (d : Nat), formatComment fmt s₁ c d = formatComment fmt s₂ c d
  | HNComment.mk cid ca ct cti cl cch cp, d => by
      simp only [formatComment]
      rw [formatChildren_src_indep fmt s₁ s₂ cch (d + 1),
        timeTextOf_src_indep fmt (HNComment.mk cid ca ct cti cl cch cp) s₁ s₂]
termination_by c d => sizeOf c

theorem formatChildren_src_indep (fmt : CommentFormatter) (s₁ s₂ : String) :
    ∀ (cs : List HNComment) (d : Nat),
      formatChildren fmt s₁ cs d = formatChildren fmt s₂ cs d
  | [], d => by simp only [formatChildren]
  | c :: rest, d => by
      simp only [formatChildren]
      rw [formatComment_src_indep fmt s₁ s₂ c d,
        formatChildren_src_indep fmt s₁ s₂ rest d]
termination_by cs d => sizeOf cs

end

/-- C10: with enhanced links enabled, the summary line's time text is a
permalink exactly for ids carrying the API strategy's `comment_` prefix,
pointing at `https://news.ycombinator.com/item?id=` followed by the id
with the first `comment_` occurrence removed; `getCommentUrl` ignores
its `sourceUrl` argument (so the whole rendering is independent of it);
ids without the prefix keep the plain time text while the author is
still rendered as a profile link. -/
theorem c10_enhanced_permalinks (fmt : CommentFormatter) (c : HNComment)
    (src : String) (he : fmt.settings.enhancedLinks = true) :
    (jsStartsWith c.id "comment_" = true →
        timeTextOf fmt c src =
          "[" ++ c.time ++ "](" ++
            getCommentUrl src (replaceFirst c.id "comment_" "") ++ ")") ∧
    (∀ (s : String) (commentId : String),
        getCommentUrl s commentId =
          "https://news.ycombinator.com/item?id=" ++ commentId) ∧
    (jsStartsWith c.id "comment_" = false → timeTextOf fmt c src = c.time) ∧
    authorTextOf fmt c =
      "[" ++ escapeMarkdown c.author ++ "](https://news.ycombinator.com/user?id=" ++
        c.author ++ ")" ∧
    (∀ (s₁ s₂ : String) (d : Nat),
        formatComment fmt s₁ c d = formatComment fmt s₂ c d) := by
  refine ⟨?_, fun s commentId => rfl, ?_, ?_, ?_⟩
  · intro hs
    have hne : (c.id != "") = true := by
      by_cases h0 : c.id = ""
      · rw [h0] at hs
        cases hs
      · simp [h0]
    rw [timeTextOf, if_pos (by simp [he, hne, hs])]
  · intro hs
    rw [timeTextOf, if_neg (by simp [hs])]
  · rw [authorTextOf, if_pos (by simp [he])]
  · intro s₁ s₂ d
    exact formatComment_src_indep fmt s₁ s₂ c d

/-- Witness for `c10_enhanced_permalinks`: an API-sourced comment whose
time becomes a permalink built from the numeric suffix, and an
HTML-sourced comment whose time stays plain. -/
theorem c10_enhanced_permalinks_witness :
    timeTextOf ⟨⟨true, true, "t", true⟩, fun _ => [], fun s => s⟩
        (HNComment.mk "comment_123" "u" "b" "9h" 0 [] none) "src" =
      "[" ++ "9h" ++ "](" ++
        getCommentUrl "src" (replaceFirst "comment_123" "comment_" "") ++ ")" ∧
    timeTextOf ⟨⟨true, true, "t", true⟩, fun _ => [], fun s => s⟩
        (HNComment.mk "q77" "u" "b" "9h" 0 [] none) "src" = "9h" ∧
    authorTextOf ⟨⟨true, true, "t", true⟩, fun _ => [], fun s => s⟩
        (HNComment.mk "q77" "u" "b" "9h" 0 [] none) =
      "[" ++ escapeMarkdown "u" ++ "](https://news.ycombinator.com/user?id=" ++
        "u" ++ ")" := by
  refine ⟨?_, ?_, ?_⟩
  · exact (c10_enhanced_permalinks ⟨⟨true, true, "t", true⟩, fun _ => [], fun s => s⟩
      (HNComment.mk "comment_123" "u" "b" "9h" 0 [] none) "src" rfl).1 (by decide)
  · exact (c10_enhanced_permalinks ⟨⟨true, true, "t", true⟩, fun _ => [], fun s => s⟩
      (HNComment.mk "q77" "u" "b" "9h" 0 [] none) "src" rfl).2.2.1 (by decide)
  · exact (c10_enhanced_permalinks ⟨⟨true, true, "t", true⟩, fun _ => [], fun s => s⟩
      (HNComment.mk "q77" "u" "b" "9h" 0 [] none) "src" rfl).2.2.2.1
